import Mathlib

/-!
Verification of the Scribe rich-text editor core (GoodPHP/scribejs).

Shallow embedding of:
* the DOM-normalization pipeline (`src/unnamed/part_002`, class `DOMNormalizer`),
* the core command handlers `code` and `link` (`src/unnamed/part_000`),
* the command executor (`src/src/core.ts`, `executeCommand`),
* the command registry enablement computation (`src/src/command-registry.ts`),
* the history manager (`src/unnamed/part_001`, class `HistoryManager`),
* the selection range normalizer (`src/unnamed/part_004`,
  `SelectionManager.normalizeRange`).

The editable surface is modelled as a forest of DOM nodes (`DNode`): the root
list stands for the children of the `contentEl` element.  Tag names are stored
lowercase (the source always compares `tagName.toLowerCase()`).  An element's
attributes are an association list in document order.
-/

namespace Scribe

/-- A DOM node: a text node or an element with a tag, attributes and children. -/
inductive DNode where
  | text : String → DNode
  | elem : String → List (String × String) → List DNode → DNode
deriving Repr

/-! ### Characters and per-text-node string rewriting (normalizer phases 4 and 5) -/

/-- The non-breaking space character U+00A0. -/
def nbspChar : Char := '\u00A0'

/-- Is this character a zero-width space U+200B or byte-order mark U+FEFF?
(The characters removed by `removeBrowserJunk`.) -/
def isZeroWidth (c : Char) : Bool := c = '\u200B' || c = '\uFEFF'

/-- Flush a pending run of `p` non-breaking spaces: runs of two or more are
replaced by the same number of ordinary spaces (`text.replace(/\u00A0{2,}/g,
m => ' '.repeat(m.length))`), shorter runs are kept. -/
def flushNbsp (p : Nat) : List Char :=
  if 2 ≤ p then List.replicate p ' ' else List.replicate p nbspChar

/-- Scan for maximal runs of U+00A0, tracking the length of the current run. -/
def replNbspGo (p : Nat) : List Char → List Char
  | [] => flushNbsp p
  | c :: cs =>
    if c = nbspChar then replNbspGo (p + 1) cs
    else flushNbsp p ++ c :: replNbspGo 0 cs

/-- Phase 4, first rewrite: replace sequences of two or more non-breaking
spaces with regular spaces of the same length. -/
def replNbsp (l : List Char) : List Char := replNbspGo 0 l

/-- Flush a pending run of `p` ordinary spaces: runs of three or more are
collapsed to exactly two (`text.replace(/ {3,}/g, '  ')`). -/
def flushSp (p : Nat) : List Char :=
  if 3 ≤ p then [' ', ' '] else List.replicate p ' '

/-- Scan for maximal runs of ordinary spaces. -/
def collapseSpGo (p : Nat) : List Char → List Char
  | [] => flushSp p
  | c :: cs =>
    if c = ' ' then collapseSpGo (p + 1) cs
    else flushSp p ++ c :: collapseSpGo 0 cs

/-- Phase 4, second rewrite: collapse runs of three or more spaces to two. -/
def collapseSp (l : List Char) : List Char := collapseSpGo 0 l

/-- The whole phase-4 text rewrite applied to one text node. -/
def cleanWsStr (s : String) : String := ⟨collapseSp (replNbsp s.data)⟩

/-- Does the text contain a zero-width space or byte-order mark
(`/[\u200B\uFEFF]/.test(text)`)? -/
def containsZeroWidth (s : String) : Bool := s.data.any isZeroWidth

/-- Strip all zero-width spaces and byte-order marks from the text
(`text.replace(/[\u200B\uFEFF]/g, '')`). -/
def stripZeroWidth (s : String) : String := ⟨s.data.filter (fun c => !isZeroWidth c)⟩

/-! ### Serialization (`innerHTML` of the editable surface) -/

/-- Escape one character of a text node the way `innerHTML` serialization
does (ampersand, angle brackets and the non-breaking space). -/
def escTextChar (c : Char) : String :=
  if c = '&' then "&amp;"
  else if c = '<' then "&lt;"
  else if c = '>' then "&gt;"
  else if c = nbspChar then "&nbsp;"
  else String.mk [c]

/-- Escape a text node for serialization. -/
def escText (s : String) : String := String.join (s.data.map escTextChar)

/-- Escape one character of an attribute value. -/
def escAttrChar (c : Char) : String :=
  if c = '&' then "&amp;"
  else if c = '"' then "&quot;"
  else if c = nbspChar then "&nbsp;"
  else String.mk [c]

/-- Escape an attribute value for serialization. -/
def escAttr (s : String) : String := String.join (s.data.map escAttrChar)

/-- HTML void elements: serialized without a closing tag. -/
def voidTags : List String := ["br", "hr", "img", "input", "area", "base", "col", "embed", "source", "track", "wbr"]

/-- Serialize an attribute list. -/
def serializeAttrs (attrs : List (String × String)) : String :=
  String.join (attrs.map fun a => " " ++ a.1 ++ "=\x22" ++ escAttr a.2 ++ "\x22")

/-- Serialize a forest of DOM nodes, as `contentEl.innerHTML` would. -/
def serializeL (l : List DNode) : String :=
  match l with
  | [] => ""
  | .text s :: rest => escText s ++ serializeL rest
  | .elem tg a k :: rest =>
    (if voidTags.contains tg then
      "<" ++ tg ++ serializeAttrs a ++ ">"
    else
      "<" ++ tg ++ serializeAttrs a ++ ">" ++ serializeL k ++ "</" ++ tg ++ ">")
      ++ serializeL rest
termination_by sizeOf l
decreasing_by all_goals simp_wf <;> omega

/-! ### DOM normalization pipeline (`DOMNormalizer`, `src/unnamed/part_002`) -/

/-- `DOMNormalizer.INLINE_TAGS`: inline tags that can be merged when adjacent
and identical. -/
def INLINE_TAGS : List String :=
  ["strong", "b", "em", "i", "u", "s", "strike", "del",
   "sub", "sup", "code", "span", "a", "mark"]

/-- `DOMNormalizer.PRESERVE_EMPTY`: tags never removed even when empty. -/
def PRESERVE_EMPTY : List String := ["br", "hr", "img", "input"]

/-- Look up an attribute value (`getAttribute`): first binding wins. -/
def lookupAttr (attrs : List (String × String)) (name : String) : Option String :=
  match attrs with
  | [] => none
  | (n, v) :: rest => if n = name then some v else lookupAttr rest name

/-- `DOMNormalizer.canMerge`: two elements merge when they have the same tag,
the tag is in the inline allow-list, and the attribute sets are identical
(same count, same name-to-value pairs). -/
def canMerge (a b : DNode) : Bool :=
  match a, b with
  | .elem ta aa _, .elem tb ab _ =>
    ta = tb && INLINE_TAGS.contains ta && aa.length = ab.length &&
      aa.all (fun p => lookupAttr ab p.1 = some p.2)
  | _, _ => false

/-- Is there, anywhere in the forest, an adjacent pair of sibling elements
that `canMerge`?

This drives the embedding of phase 1, `mergeAdjacentInlines`.  In the source
the phase iterates over a frozen `Array.from(root.childNodes)` snapshot; when
a pair merges it decrements the loop index to re-check the same position, but
the snapshot still holds the now-detached second element, whose tag and
attributes are unchanged and which therefore still satisfies `canMerge`, so
the loop re-merges the same detached node forever: a successful merge never
terminates.  Hence the terminating behaviour of `mergeAdjacentInlines` is
exactly: diverge when such a pair exists, otherwise leave the tree unchanged
(the phase performs no other mutation). -/
def hasMergeablePair (l : List DNode) : Bool :=
  match l with
  | [] => false
  | n :: rest =>
    (match rest with
     | b :: _ => canMerge n b
     | [] => false)
    || (match n with
        | .elem _ _ k => hasMergeablePair k
        | .text _ => false)
    || hasMergeablePair rest
termination_by sizeOf l
decreasing_by all_goals simp_wf <;> omega

/-- Concatenated text of a forest (`Node.textContent`). -/
def textContentL (l : List DNode) : String :=
  match l with
  | [] => ""
  | .text s :: rest => s ++ textContentL rest
  | .elem _ _ k :: rest => textContentL k ++ textContentL rest
termination_by sizeOf l
decreasing_by all_goals simp_wf <;> omega

/-- ECMAScript whitespace as removed by `String.prototype.trim`: WhiteSpace
(tab, vertical tab, form feed, space, no-break space, BOM, the Unicode
space separators) and LineTerminator (LF, CR, LS, PS). -/
def isJsWhitespace (c : Char) : Bool :=
  c = '\t' || c = '\n' || c = '\x0b' || c = '\x0c' || c = '\r' || c = ' ' ||
    c = nbspChar || c = '\u1680' ||
    ('\u2000' ≤ c && c ≤ '\u200A') ||
    c = '\u2028' || c = '\u2029' || c = '\u202F' || c = '\u205F' ||
    c = '\u3000' || c = '\uFEFF'

/-- `String.prototype.trim`: strip leading and trailing ECMAScript
whitespace. -/
def jsTrim (s : String) : String :=
  ⟨((s.data.dropWhile isJsWhitespace).reverse.dropWhile isJsWhitespace).reverse⟩

/-- Phase 2, `removeEmptyNodes`: post-order removal of allow-listed inline
elements that, after their own children have been processed, have no child
nodes and no non-whitespace text content, except for the preserve-list.
(For a childless element `textContent` is always empty; the source's
`!el.textContent?.trim()` conjunct is kept for fidelity.) -/
def removeEmptyL (l : List DNode) : List DNode :=
  match l with
  | [] => []
  | .text s :: rest => .text s :: removeEmptyL rest
  | .elem tg a k :: rest =>
    let k2 := removeEmptyL k
    if INLINE_TAGS.contains tg && !PRESERVE_EMPTY.contains tg &&
        k2.isEmpty && jsTrim (textContentL k2) = "" then
      removeEmptyL rest
    else
      .elem tg a k2 :: removeEmptyL rest
termination_by sizeOf l
decreasing_by all_goals simp_wf <;> omega

/-- Phase 3, `flattenNestedInlines`: post-order; if an allow-listed inline
element's sole child is an element with the same tag satisfying `canMerge`,
unwrap the inner element into the outer one. -/
def flattenL (l : List DNode) : List DNode :=
  match l with
  | [] => []
  | .text s :: rest => .text s :: flattenL rest
  | .elem tg a k :: rest =>
    let k2 := flattenL k
    let k3 :=
      if INLINE_TAGS.contains tg then
        match k2 with
        | [.elem tg2 a2 kk] =>
          if tg2 = tg && canMerge (.elem tg a k2) (.elem tg2 a2 kk) then kk else k2
        | _ => k2
      else k2
    .elem tg a k3 :: flattenL rest
termination_by sizeOf l
decreasing_by all_goals simp_wf <;> omega

/-- Phase 4, `cleanWhitespace`: rewrite every text node that is not inside a
`pre` or `code` ancestor (ancestry strictly below the editable root).  The
`insidePre` flag records whether a `pre`/`code` element has been entered. -/
def cleanWsL (insidePre : Bool) (l : List DNode) : List DNode :=
  match l with
  | [] => []
  | .text s :: rest =>
    .text (if insidePre then s else cleanWsStr s) :: cleanWsL insidePre rest
  | .elem tg a k :: rest =>
    .elem tg a (cleanWsL (insidePre || tg = "pre" || tg = "code") k) :: cleanWsL insidePre rest
termination_by sizeOf l
decreasing_by all_goals simp_wf <;> omega

/-- Phase 5, `removeBrowserJunk`: drop text nodes that are exactly a
zero-width space or byte-order mark; strip those characters from other text
nodes; unwrap `span` elements that carry no attribute at all.  The source
iterates over a snapshot of the child list and `continue`s after an unwrap,
so the children moved out of an unwrapped span are *not* visited again in
this pass. -/
def junkL (l : List DNode) : List DNode :=
  match l with
  | [] => []
  | .text s :: rest =>
    if s = "\u200B" || s = "\uFEFF" then junkL rest
    else .text (if containsZeroWidth s then stripZeroWidth s else s) :: junkL rest
  | .elem tg a k :: rest =>
    if tg = "span" && !(lookupAttr a "style").isSome && !(lookupAttr a "class").isSome &&
        !(lookupAttr a "data-type").isSome && a.length = 0 then
      k ++ junkL rest
    else
      .elem tg a (junkL k) :: junkL rest
termination_by sizeOf l
decreasing_by all_goals simp_wf <;> omega

/-- The final `contentEl.normalize()` call (native DOM `Node.normalize`):
remove empty text nodes and merge adjacent text nodes, recursively. -/
def coalesceTexts (l : List DNode) : List DNode :=
  match l with
  | [] => []
  | .text s :: rest =>
    if s = "" then coalesceTexts rest
    else
      match coalesceTexts rest with
      | .text s2 :: r2 => .text (s ++ s2) :: r2
      | r => .text s :: r
  | .elem tg a k :: rest => .elem tg a (coalesceTexts k) :: coalesceTexts rest
termination_by sizeOf l
decreasing_by all_goals simp_wf <;> omega

/-- `DOMNormalizer.normalize`: the full pipeline over the editable surface.
Phases run in the fixed source order; `none` models non-termination of
phase 1 (see `hasMergeablePair`). -/
def normalizeTree (l : List DNode) : Option (List DNode) :=
  if hasMergeablePair l then none
  else some (coalesceTexts (junkL (cleanWsL false (flattenL (removeEmptyL l)))))

/-! ### Paths into the editable surface

A node inside the surface is addressed by the list of child indices leading to
it from `contentEl`; the empty path stands for `contentEl` itself (which is
not a `DNode` of the forest). -/

/-- The node at a path (`none` for the empty path: that is `contentEl`,
not a node of the forest, and for out-of-tree paths). -/
def nodeAt (l : List DNode) : List Nat → Option DNode
  | [] => none
  | [i] => l.get? i
  | i :: rest =>
    match l.get? i with
    | some (.elem _ _ k) => nodeAt k rest
    | _ => none

/-- The child list of the node at a path, with the empty path denoting the
editable root (whose children are the forest itself). -/
def childrenAt (l : List DNode) (p : List Nat) : Option (List DNode) :=
  match p with
  | [] => some l
  | _ =>
    match nodeAt l p with
    | some (.elem _ _ k) => some k
    | _ => none

/-- Apply `f` to the node at a path (identity when the path misses). -/
def updListAt (l : List DNode) (i : Nat) (f : DNode → DNode) : List DNode :=
  match l, i with
  | [], _ => []
  | x :: xs, 0 => f x :: xs
  | x :: xs, n + 1 => x :: updListAt xs n f

/-- Apply `f` to the node at `p` (identity when `p` is empty or misses). -/
def updateAt (l : List DNode) : List Nat → (DNode → DNode) → List DNode
  | [], _ => l
  | [i], f => updListAt l i f
  | i :: rest, f =>
    updListAt l i fun n =>
      match n with
      | .elem tg a k => .elem tg a (updateAt k rest f)
      | x => x

/-- Replace the node at index `i` by a list of nodes. -/
def spliceListAt (l : List DNode) (i : Nat) (g : DNode → List DNode) : List DNode :=
  match l, i with
  | [], _ => []
  | x :: xs, 0 => g x ++ xs
  | x :: xs, n + 1 => x :: spliceListAt xs n g

/-- Replace the node at `p` by a list of nodes (identity when `p` misses). -/
def replaceAt (l : List DNode) : List Nat → (DNode → List DNode) → List DNode
  | [], _ => l
  | [i], g => spliceListAt l i g
  | i :: rest, g =>
    updListAt l i fun n =>
      match n with
      | .elem tg a k => .elem tg a (replaceAt k rest g)
      | x => x

/-- `findParentTag` (`src/unnamed/part_000`): starting from the node at `p`
and walking the parent chain, the path of the first element whose tag equals
`tag`; text nodes along the chain are skipped (they carry no tag).  The walk
ends at the editable root (path `[]`), which is never an anchor in this model
(the chain above `contentEl` contains no matching tags). -/
def findParentTagPath (l : List DNode) (tag : String) (p : List Nat) : Option (List Nat) :=
  if h : p = [] then none
  else
    match nodeAt l p with
    | some (.elem tg _ _) => if tg = tag then some p else findParentTagPath l tag p.dropLast
    | _ => findParentTagPath l tag p.dropLast
termination_by p.length
decreasing_by all_goals
  simp only [List.length_dropLast]
  have := List.length_pos.mpr h
  omega

/-- `SelectionManager.hasTag` (`src/unnamed/part_004`): does any element on
the parent chain of the node at `p`, strictly below the editable root, have
the given tag? -/
def hasAncestorTag (l : List DNode) (tag : String) (p : List Nat) : Bool :=
  if h : p = [] then false
  else
    match nodeAt l p with
    | some (.elem tg _ _) => tg = tag || hasAncestorTag l tag p.dropLast
    | _ => hasAncestorTag l tag p.dropLast
termination_by p.length
decreasing_by all_goals
  simp only [List.length_dropLast]
  have := List.length_pos.mpr h
  omega

/-- `SelectionManager.getLinkUrl` (`src/unnamed/part_004`): walk the parent
chain below the editable root; at the *first* anchor element encountered,
return `anchor.href || null` and stop.

`anchor.href` is the reflected IDL attribute; this model returns the literal
`href` attribute value (URL resolution against a base URL is a host-engine
concern outside the embedded code).  A missing attribute reflects as the
empty string, hence `none`. -/
def getLinkUrlPath (l : List DNode) (p : List Nat) : Option String :=
  if h : p = [] then none
  else
    match nodeAt l p with
    | some (.elem tg a _) =>
      if tg = "a" then
        match lookupAttr a "href" with
        | some v => if v = "" then none else some v
        | none => none
      else getLinkUrlPath l p.dropLast
    | _ => getLinkUrlPath l p.dropLast
termination_by p.length
decreasing_by all_goals
  simp only [List.length_dropLast]
  have := List.length_pos.mpr h
  omega

/-- The `href` attribute values (present or not) of every anchor element of
the forest, in document order. -/
def anchorHrefs (l : List DNode) : List (Option String) :=
  match l with
  | [] => []
  | .text _ :: rest => anchorHrefs rest
  | .elem tg a k :: rest =>
    (if tg = "a" then [lookupAttr a "href"] else []) ++ anchorHrefs k ++ anchorHrefs rest
termination_by sizeOf l
decreasing_by all_goals simp_wf <;> omega

/-- Does the forest contain an element with the given tag? -/
def containsTagL (tag : String) (l : List DNode) : Bool :=
  match l with
  | [] => false
  | .text _ :: rest => containsTagL tag rest
  | .elem tg _ k :: rest => tg = tag || containsTagL tag k || containsTagL tag rest
termination_by sizeOf l
decreasing_by all_goals simp_wf <;> omega

/-- No anchor element of the forest contains another anchor element; the
flag records whether we are already inside an anchor. -/
def noNestedAnchor (insideA : Bool) (l : List DNode) : Bool :=
  match l with
  | [] => true
  | .text _ :: rest => noNestedAnchor insideA rest
  | .elem tg _ k :: rest =>
    (if tg = "a" then !insideA && noNestedAnchor true k else noNestedAnchor insideA k)
      && noNestedAnchor insideA rest
termination_by sizeOf l
decreasing_by all_goals simp_wf <;> omega

/-! ### Selection state seen by command handlers

`SelectionManager.getSelection` returns a `SelectionState` whose `range` is a
clone of the (normalized) live range.  For the command handlers below the
relevant data are: the `collapsed` flag, whether the `range` is present (it
always is in the source; handlers still null-check it), the path of
`range.commonAncestorContainer`, and, for ranges lying inside one text node,
the start and end offsets (the only range shape the extraction-based command
paths are modelled for).  The `formats` fields consulted by the handlers
(`formats.code`, `formats.link`) are recomputed here from the tree by the
embedded ancestor walks `hasAncestorTag` / `getLinkUrlPath`; for a range
contained in a single node, `getFormats` resolves to an element inside the
same parent chain, so the walks coincide with the source computation. -/
structure SelS where
  collapsed : Bool
  rangePresent : Bool
  container : List Nat
  startOff : Nat
  endOff : Nat
deriving Repr

/-- Wrap the text selected inside a single text node in a fresh element
(`range.extractContents()` into a new element, then `range.insertNode`):
the text node splits into the part before the range, the wrapper holding the
extracted middle, and the part after. -/
def wrapRangeInTag (l : List DNode) (s : SelS) (tag : String) (attrs : List (String × String)) :
    List DNode :=
  replaceAt l s.container fun n =>
    match n with
    | .text str =>
      [.text ⟨str.data.take s.startOff⟩,
       .elem tag attrs [.text ⟨(str.data.take s.endOff).drop s.startOff⟩],
       .text ⟨str.data.drop s.endOff⟩]
    | x => [x]

/-- Unwrap the element at `p`: re-insert its children in its place and remove
it (the `while (code.firstChild) parent.insertBefore(...)` loop plus
`code.remove()`). -/
def unwrapAt (l : List DNode) (p : List Nat) : List DNode :=
  replaceAt l p fun n =>
    match n with
    | .elem _ _ k => k
    | x => [x]

/-- `coreCommands.code` (`src/unnamed/part_000`, lines 31-56): no-op without
a selection or on a collapsed one; if `formats.code` is set, unwrap the
`code` ancestor of the range's common ancestor container; otherwise wrap the
extracted range contents in a fresh `code` element. -/
def codeCmd (l : List DNode) (sel : Option SelS) : List DNode :=
  match sel with
  | none => l
  | some s =>
    if s.collapsed then l
    else if !s.rangePresent then l
    else if hasAncestorTag l "code" s.container then
      match findParentTagPath l "code" s.container with
      | some p => unwrapAt l p
      | none => l
    else wrapRangeInTag l s "code" []

/-- A loosely-typed command argument (`unknown` in the source). -/
inductive JVal where
  | str : String → JVal
  | num : Int → JVal
  | other : JVal
deriving Repr

/-- Modelled from the spec: the native `document.execCommand('createLink',
false, url)` invoked by the non-linked, non-collapsed branch of the `link`
handler — the host engine, not repository code — "create a new link from the
current selection text".  Modelled, for a range inside one text node, as
wrapping the selected text in a fresh anchor carrying the url. -/
def createLinkNative (l : List DNode) (s : SelS) (url : String) : List DNode :=
  wrapRangeInTag l s "a" [("href", url)]

/-- Set (or append) an attribute binding, as the `anchor.href = url` setter
does to the `href` content attribute. -/
def setAttrVal (attrs : List (String × String)) (name v : String) : List (String × String) :=
  if (lookupAttr attrs name).isSome then
    attrs.map fun p => if p.1 = name then (p.1, v) else p
  else attrs ++ [(name, v)]

/-- Overwrite the `href` attribute of an element (identity on text nodes). -/
def setHrefF (url : String) (n : DNode) : DNode :=
  match n with
  | .elem tg a k => .elem tg (setAttrVal a "href" url) k
  | x => x

/-- `coreCommands.link` (`src/unnamed/part_000`, lines 122-141): no-op for a
non-string url or without a selection; if `formats.link` is set, overwrite
the `href` of the anchor found by `findParentTag` from the range's common
ancestor container; otherwise, on a non-collapsed selection, delegate to the
native create-link command; otherwise no-op. -/
def linkCmd (l : List DNode) (arg : JVal) (sel : Option SelS) : List DNode :=
  match arg with
  | .str url =>
    (match sel with
     | none => l
     | some s =>
       if (getLinkUrlPath l s.container).isSome then
         if !s.rangePresent then l
         else
           match findParentTagPath l "a" s.container with
           | some p => updateAt l p (setHrefF url)
           | none => l
       else if !s.collapsed then createLinkNative l s url
       else l)
  | _ => l

/-- The content-level effect of `executeCommand` (`src/src/core.ts`, lines
86-120) for the registered `code` command: no-op when the editor is
read-only; otherwise the resolved handler mutates the surface and the DOM
normalizer then runs over it (the history push, events and deferred re-read
do not touch the content). -/
def execCodeExec (readOnly : Bool) (l : List DNode) (sel : Option SelS) :
    Option (List DNode) :=
  if readOnly then some l
  else normalizeTree (codeCmd l sel)

/-! ### Selection range normalization
(`SelectionManager.normalizeRange`, `src/unnamed/part_004`, lines 77-114) -/

/-- A DOM range: two boundary points, each a container (path; `[]` is the
editable root `contentEl`) and an offset (a character offset in a text
container, a child index in an element container). -/
structure RangeV where
  sPath : List Nat
  sOff : Nat
  ePath : List Nat
  eOff : Nat
deriving Repr, DecidableEq

/-- `range.collapsed`: the two boundary points coincide. -/
def rangeCollapsed (r : RangeV) : Bool :=
  r.sPath = r.ePath && r.sOff = r.eOff

/-- `normalizeRange`: clone the range; return the clone unchanged if it is
collapsed; otherwise apply the four boundary corrections in order.

Rule 1 (`setStartBefore(startContainer.nextSibling)`): a start boundary at
the very end of a text node that has a next sibling moves to the parent
element at the sibling's index.  Rule 2 (`setEndAfter(childNodes[endOffset -
1])`): an end boundary on the editable root at a positive offset is re-set
after the preceding child — container and offset are recomputed but come out
unchanged.  Rule 3 (`setEndBefore(endContainer)`): an end boundary at offset
zero of a non-root container moves before that container.  Rule 4
(`setEndBefore(lastNode)`): an end boundary in an element container whose
preceding child is a `br` moves before that `br`. -/
def normalizeRange (t : List DNode) (input : RangeV) : RangeV :=
  let r := input
  if rangeCollapsed r then r
  else
    let r1 :=
      match nodeAt t r.sPath with
      | some (.text s) =>
        if r.sOff = s.length then
          match r.sPath.getLast? with
          | some i =>
            match childrenAt t r.sPath.dropLast with
            | some sibs =>
              if (sibs.get? (i + 1)).isSome then
                { r with sPath := r.sPath.dropLast, sOff := i + 1 }
              else r
            | none => r
          | none => r
        else r
      | _ => r
    let r2 :=
      if r1.ePath = [] && r1.eOff > 0 then
        match t.get? (r1.eOff - 1) with
        | some _ => { r1 with ePath := [], eOff := (r1.eOff - 1) + 1 }
        | none => r1
      else r1
    let r3 :=
      if r2.eOff = 0 && !(r2.ePath = []) then
        match r2.ePath.getLast? with
        | some i => { r2 with ePath := r2.ePath.dropLast, eOff := i }
        | none => r2
      else r2
    let r4 :=
      match (if r3.ePath = [] then some t else
              match nodeAt t r3.ePath with
              | some (.elem _ _ k) => some k
              | _ => none) with
      | some kids =>
        if r3.eOff > 0 then
          match kids.get? (r3.eOff - 1) with
          | some (.elem "br" _ _) => { r3 with eOff := r3.eOff - 1 }
          | _ => r3
        else r3
      | none => r3
    r4

/-- The caller's view of one `normalizeRange(range)` call: the source clones
the argument and mutates only the clone, so the pair holds the caller's
range after the call (untouched) and the returned range. -/
def normalizeRangeCall (t : List DNode) (input : RangeV) : RangeV × RangeV :=
  (input, normalizeRange t input)

/-! ### History manager (`HistoryManager`, `src/unnamed/part_001`)

The debounce timer is modelled by the `pending` field: `push` stores the
entry the scheduled callback would append; `fireDebounce` models the timer
elapsing; both `push` and `pushImmediate` cancel (overwrite) any pending
timer, as `clearTimeout` does.  `HistoryEntry.timestamp` (`Date.now()`) is
omitted: it is ambient wall-clock data no claim depends on. -/

/-- One undo snapshot: serialized content plus an optional text-offset
selection. -/
structure HistoryEntry where
  html : String
  selection : Option (Nat × Nat)
deriving Repr, DecidableEq

/-- The history manager's state. -/
structure HistoryM where
  stack : List HistoryEntry
  position : Int
  maxSize : Nat
  pending : Option (String × Option (Nat × Nat))
  lastContent : String
deriving Repr, DecidableEq

/-- A fresh manager (`constructor(maxSize = 100)`). -/
def freshHistory (maxSize : Nat) : HistoryM :=
  { stack := [], position := -1, maxSize := maxSize, pending := none, lastContent := "" }

/-- `addEntry`: truncate the stack to everything at or before the current
position, append the new entry, then either drop the oldest entry (when over
capacity) or advance the position. -/
def addEntry (html : String) (sel : Option (Nat × Nat)) (m : HistoryM) : HistoryM :=
  let s := m.stack.take (m.position + 1).toNat ++ [⟨html, sel⟩]
  if s.length > m.maxSize then
    { m with stack := s.drop 1 }
  else
    { m with stack := s, position := m.position + 1 }

/-- `push`: skip when the content equals the last-pushed content; otherwise
update `lastContent` immediately, cancel any pending timer and schedule the
entry. -/
def push (html : String) (sel : Option (Nat × Nat)) (m : HistoryM) : HistoryM :=
  if html = m.lastContent then m
  else { m with lastContent := html, pending := some (html, sel) }

/-- The debounce timer elapsing: append the scheduled entry. -/
def fireDebounce (m : HistoryM) : HistoryM :=
  match m.pending with
  | none => m
  | some (html, sel) => addEntry html sel { m with pending := none }

/-- `pushImmediate`: cancel any pending timer, then append synchronously when
the content differs from the last-pushed content. -/
def pushImmediate (html : String) (sel : Option (Nat × Nat)) (m : HistoryM) : HistoryM :=
  let m1 := { m with pending := none }
  if html ≠ m1.lastContent then
    addEntry html sel { m1 with lastContent := html }
  else m1

/-- `canUndo`. -/
def canUndo (m : HistoryM) : Bool := m.position > 0

/-- `canRedo`. -/
def canRedo (m : HistoryM) : Bool := m.position < m.stack.length - 1

/-- The state change of `undo()` (which returns the entry now at the
position, or null when `canUndo` fails). -/
def undoS (m : HistoryM) : HistoryM :=
  if canUndo m then { m with position := m.position - 1 } else m

/-- Iterate `pushImmediate` over a list of contents (each with no selection,
as `executeCommand` and `setHTML` pass `null`). -/
def pushListI (cs : List String) (m : HistoryM) : HistoryM :=
  match cs with
  | [] => m
  | c :: rest => pushListI rest (pushImmediate c none m)

/-- Iterate the state change of `undo()`. -/
def undoN (k : Nat) (m : HistoryM) : HistoryM :=
  match k with
  | 0 => m
  | k + 1 => undoN k (undoS m)

/-! ### Format state, command registry and command executor
(`src/src/types.ts`, `src/src/command-registry.ts`, `src/src/core.ts`) -/

/-- List kind of `FormatState.list`. -/
inductive ListKind where
  | ordered
  | unordered
deriving Repr, DecidableEq

/-- Alignment of `FormatState.align`. -/
inductive AlignK where
  | left
  | center
  | right
  | justify
deriving Repr, DecidableEq

/-- `FormatState` (`src/src/types.ts`). -/
structure FormatState where
  bold : Bool
  italic : Bool
  underline : Bool
  strike : Bool
  code : Bool
  subscript : Bool
  superscript : Bool
  link : Option String
  heading : Option Nat
  list : Option ListKind
  blockquote : Bool
  align : AlignK
  fontSize : Option String
  fontFamily : Option String
  color : Option String
  backgroundColor : Option String
deriving Repr, DecidableEq

/-- `SelectionManager.getDefaultFormats`. -/
def defaultFormats : FormatState :=
  { bold := false, italic := false, underline := false, strike := false,
    code := false, subscript := false, superscript := false,
    link := none, heading := none, list := none, blockquote := false,
    align := .left, fontSize := none, fontFamily := none,
    color := none, backgroundColor := none }

/-- The argument record of a custom `isEnabled` predicate. -/
structure EnabledCtx where
  format : FormatState
  hasSelection : Bool
  readOnly : Bool

/-- `CommandRegistration` (`src/src/command-registry.ts`); `α` is the type
standing in for handler functions so that a resolved handler can be named. -/
structure CommandRegistration (α : Type) where
  name : String
  label : String
  category : String
  type : String
  handler : α
  icon : Option String := none
  toolbarGroup : Option String := none
  isActive : Option (FormatState → Bool) := none
  getAttributes : Option (FormatState → Option (List (String × JVal))) := none
  shortcut : Option String := none
  requiresSelection : Bool := false
  exclusiveGroup : Option String := none
  isEnabled : Option (EnabledCtx → Bool) := none
  floatingToolbar : Bool := false
  fixedToolbar : Bool := false
  defaultArgs : List JVal := []

/-- `CommandMetadata` (`src/src/types.ts`) as computed by
`CommandRegistry.getCommandState`. -/
structure CommandMetadataV where
  name : String
  label : String
  category : String
  type : String
  active : Bool
  supported : Bool
  enabled : Bool
  attributes : Option (List (String × JVal))
  shortcut : Option String
  exclusiveGroup : Option String
  floatingToolbar : Bool
  fixedToolbar : Bool
  icon : Option String
  toolbarGroup : Option String
  defaultArgs : List JVal

/-- `CommandRegistry.getCommandState` (`src/src/command-registry.ts`, lines
60-87): `enabled` is `!readOnly && (!requiresSelection || hasSelection) &&
(isEnabled ? isEnabled({format, hasSelection, readOnly}) : true)`. -/
def getCommandState {α : Type} (registry : String → Option (CommandRegistration α))
    (name : String) (formatState : FormatState) (hasSelection readOnly : Bool) :
    Option CommandMetadataV :=
  match registry name with
  | none => none
  | some reg =>
    some
      { name := reg.name, label := reg.label, category := reg.category, type := reg.type,
        active := match reg.isActive with | some f => f formatState | none => false,
        supported := !readOnly,
        enabled := !readOnly && (!reg.requiresSelection || hasSelection) &&
          (match reg.isEnabled with
           | some f => f ⟨formatState, hasSelection, readOnly⟩
           | none => true),
        attributes := match reg.getAttributes with | some f => f formatState | none => none,
        shortcut := reg.shortcut, exclusiveGroup := reg.exclusiveGroup,
        floatingToolbar := reg.floatingToolbar, fixedToolbar := reg.fixedToolbar,
        icon := reg.icon, toolbarGroup := reg.toolbarGroup, defaultArgs := reg.defaultArgs }

/-- The handler-resolution prefix of `executeCommand` (`src/src/core.ts`,
lines 86-97): return without acting when the editor is read-only; resolve
the handler from the registry, falling back to the legacy flat command map;
no-op when unresolved; otherwise invoke the handler with the caller's
arguments, or the registration's default arguments when none were given.
The result names the handler that runs and the arguments it receives. -/
def resolveExec {α : Type} (readOnly : Bool)
    (registry : String → Option (CommandRegistration α))
    (commands : String → Option α) (command : String) (args : List JVal) :
    Option (α × List JVal) :=
  if readOnly then none
  else
    let registration := registry command
    let handler := match registration with
      | some r => some r.handler
      | none => commands command
    match handler with
    | some h =>
      some (h, if args.length > 0 then args
               else match registration with
                    | some r => r.defaultArgs
                    | none => [])
    | none => none

/-- The observable steps of one `executeCommand` run
(`src/src/core.ts`, lines 97-118). -/
inductive ExecStep where
  | handlerRun
  | normalizeRun
  | historyDebouncedPush
  | changeEmitted
  | onChangeCallback
  | formatChangeSyncCommand
  | selectionReread
  | formatChangeDeferred
deriving Repr, DecidableEq

/-- The synchronous phase of `executeCommand` once a handler resolved:
handler, DOM normalization, debounced history push, `change` emission, the
external `onChange` callback when configured, then the synchronous
format-change emission tagged `'command'` (emitted only when the
field-by-field diff is non-empty, hence the flag). -/
def execSyncTrace (onChangePresent syncDiff : Bool) : List ExecStep :=
  [.handlerRun, .normalizeRun, .historyDebouncedPush, .changeEmitted]
    ++ (if onChangePresent then [.onChangeCallback] else [])
    ++ (if syncDiff then [.formatChangeSyncCommand] else [])

/-- The deferred (`requestAnimationFrame`) phase: re-read the selection and
emit a selection change, then a second format-change emission when the
selection is present and its format diff is non-empty. -/
def execDeferredTrace (selPresent deferredDiff : Bool) : List ExecStep :=
  [.selectionReread] ++ (if selPresent && deferredDiff then [.formatChangeDeferred] else [])

/-- One `executeCommand` run as (synchronous steps, deferred steps): empty
when read-only or when no handler resolves. -/
def executeCommandTrace (readOnly resolved onChangePresent syncDiff selPresent deferredDiff : Bool) :
    List ExecStep × List ExecStep :=
  if readOnly then ([], [])
  else if !resolved then ([], [])
  else (execSyncTrace onChangePresent syncDiff, execDeferredTrace selPresent deferredDiff)

/-- The full observable order of one `executeCommand` run: the event loop is
single-threaded, so the animation-frame callback scheduled during the
synchronous phase runs only after that phase has completed. -/
def executeCommandFullTrace (readOnly resolved onChangePresent syncDiff selPresent deferredDiff : Bool) :
    List ExecStep :=
  (executeCommandTrace readOnly resolved onChangePresent syncDiff selPresent deferredDiff).1
    ++ (executeCommandTrace readOnly resolved onChangePresent syncDiff selPresent deferredDiff).2

/-- The push/undo/push scenario of the undo-redo stack invariant: N
immediate pushes of contents f 0 .. f (N-1) into a fresh manager of the
given capacity, M undo calls, then one new immediate push of f N. -/
def pushUndoPushScenario (N M cap : Nat) (f : Nat → String) : HistoryM :=
  pushImmediate (f N) none (undoN M (pushListI ((List.range N).map f) (freshHistory cap)))

/-! ## Theorems -/

/-! ### General evaluation lemmas -/

theorem containsZeroWidth_stripZeroWidth (s : String) :
    containsZeroWidth (stripZeroWidth s) = false := by
  simp only [containsZeroWidth, stripZeroWidth]
  rw [List.any_eq_false]
  intro c hc
  simp only [List.mem_filter, Bool.not_eq_eq_eq_not, Bool.not_true] at hc
  simp [hc.2]

theorem stripZeroWidth_of_not_contains (s : String)
    (h : containsZeroWidth s = false) : stripZeroWidth s = s := by
  obtain ⟨data⟩ := s
  simp only [containsZeroWidth, List.any_eq_false] at h
  simp only [stripZeroWidth]
  congr 1
  exact List.filter_eq_self.mpr (fun c hc => by simpa using h c hc)

theorem normalizeTree_nil : normalizeTree [] = some [] := by
  simp [normalizeTree, hasMergeablePair, removeEmptyL, flattenL, cleanWsL, junkL, coalesceTexts]

/-- Normalization of a surface holding a single text node, as a function of
the phase-4 and phase-5 text rewrites. -/
theorem junkL_single_text (x : String) :
    junkL [DNode.text x] =
      if x = "\u200B" || x = "\uFEFF" then [] else [DNode.text (stripZeroWidth x)] := by
  by_cases hzx : x = "\u200B"
  · simp [junkL, hzx]
  by_cases hbx : x = "\uFEFF"
  · simp [junkL, hbx]
  by_cases hcx : containsZeroWidth x
  · simp [junkL, hzx, hbx, hcx]
  · have hs : stripZeroWidth x = x :=
      stripZeroWidth_of_not_contains x (by simpa using hcx)
    simp [junkL, hzx, hbx, hcx, hs]

theorem coalesceTexts_single_text (x : String) :
    coalesceTexts [DNode.text x] = if x = "" then [] else [DNode.text x] := by
  by_cases hx : x = "" <;> simp [coalesceTexts, hx]

theorem normalizeTree_single_text (s : String) :
    normalizeTree [DNode.text s] =
      some (if cleanWsStr s = "\u200B" || cleanWsStr s = "\uFEFF" then []
            else if stripZeroWidth (cleanWsStr s) = "" then []
            else [DNode.text (stripZeroWidth (cleanWsStr s))]) := by
  have hmp : hasMergeablePair [DNode.text s] = false := by simp [hasMergeablePair]
  have h2 : removeEmptyL [DNode.text s] = [DNode.text s] := by simp [removeEmptyL]
  have h3 : flattenL [DNode.text s] = [DNode.text s] := by simp [flattenL]
  have h4 : cleanWsL false [DNode.text s] = [DNode.text (cleanWsStr s)] := by
    simp [cleanWsL]
  simp only [normalizeTree, hmp, Bool.false_eq_true, if_false, h2, h3, h4,
    junkL_single_text, Option.some.injEq]
  by_cases hz : (cleanWsStr s = "\u200B" || cleanWsStr s = "\uFEFF") = true
  · simp [hz, coalesceTexts]
  · rw [if_neg (by simpa using hz), if_neg (by simpa using hz),
      coalesceTexts_single_text]

/-! ### Claim C3 — idempotence of normalize() -/

/-- C3 counterexample: on the surface holding the single text node
U+00A0 U+200B U+00A0, one `normalize()` yields the text U+00A0 U+00A0 (the
zero-width stripping of phase 5 runs after the whitespace phase and creates a
new non-breaking-space run), and a second `normalize()` rewrites that run to
two ordinary spaces: the serialized outputs of one and of two calls differ,
so `normalize()` is not idempotent. -/
theorem c3_counterexample :
    normalizeTree [DNode.text "\u00A0\u200B\u00A0"] = some [DNode.text "\u00A0\u00A0"] ∧
    normalizeTree [DNode.text "\u00A0\u00A0"] = some [DNode.text "  "] ∧
    serializeL [DNode.text "  "] ≠ serializeL [DNode.text "\u00A0\u00A0"] := by
  refine ⟨?_, ?_, ?_⟩
  · rw [normalizeTree_single_text]
    simp [cleanWsStr, collapseSp, replNbsp, replNbspGo, collapseSpGo, flushSp, flushNbsp,
      nbspChar, stripZeroWidth, isZeroWidth]
  · rw [normalizeTree_single_text]
    simp [cleanWsStr, collapseSp, replNbsp, replNbspGo, collapseSpGo, flushSp, flushNbsp,
      nbspChar, stripZeroWidth, isZeroWidth]
  · simp [serializeL, escText, escTextChar, nbspChar, String.join]

/-- C3 (amended): `normalize()` is idempotent on a surface holding a single
text node provided stripping zero-width characters from the
whitespace-cleaned text does not create a new collapsible whitespace run,
i.e. provided the once-cleaned-and-stripped text is a fixed point of the
whitespace-cleaning rewrite.  (In general a second call can differ: phase-5
zero-width stripping and the final text-node coalescing can both create new
non-breaking-space or space runs that only the next call's phase 4
rewrites.) -/
theorem c3_theorem (s : String)
    (h : cleanWsStr (stripZeroWidth (cleanWsStr s)) = stripZeroWidth (cleanWsStr s)) :
    (normalizeTree [DNode.text s]).bind normalizeTree = normalizeTree [DNode.text s] := by
  rw [normalizeTree_single_text s]
  by_cases hz : (cleanWsStr s = "\u200B" || cleanWsStr s = "\uFEFF") = true
  · rw [if_pos hz]
    simpa [Option.bind] using normalizeTree_nil
  · rw [if_neg hz]
    by_cases h0 : stripZeroWidth (cleanWsStr s) = ""
    · rw [if_pos h0]
      simpa [Option.bind] using normalizeTree_nil
    · rw [if_neg h0]
      have hcd : containsZeroWidth (stripZeroWidth (cleanWsStr s)) = false :=
        containsZeroWidth_stripZeroWidth _
      have hdz : ¬stripZeroWidth (cleanWsStr s) = "\u200B" := by
        intro he
        rw [he] at hcd
        simp [containsZeroWidth, isZeroWidth] at hcd
      have hdb : ¬stripZeroWidth (cleanWsStr s) = "\uFEFF" := by
        intro he
        rw [he] at hcd
        simp [containsZeroWidth, isZeroWidth] at hcd
      have hsd : stripZeroWidth (stripZeroWidth (cleanWsStr s)) = stripZeroWidth (cleanWsStr s) :=
        stripZeroWidth_of_not_contains _ hcd
      simp only [Option.some_bind]
      rw [normalizeTree_single_text, h, hsd]
      simp [hdz, hdb, h0]

/-- C3 witness: the hypothesis of `c3_theorem` holds for the text
"ab", and normalizing the surface holding it twice equals normalizing it
once. -/
theorem c3_witness :
    (normalizeTree [DNode.text "ab"]).bind normalizeTree = normalizeTree [DNode.text "ab"] :=
  c3_theorem "ab" (by decide)

/-! ### Claim C4 — empty-inline-node removal -/

/-- C4 counterexample: a bold element whose content is only whitespace is
*not* removed by normalization — `removeEmptyNodes` requires the element to
have no child nodes at all (`!el.hasChildNodes()`), and a whitespace text
child is a child node; no other phase removes it either.  The claim's first
half is therefore false on the code. -/
theorem c4_counterexample :
    normalizeTree [DNode.elem "b" [] [.text " "]] = some [DNode.elem "b" [] [.text " "]] ∧
    containsTagL "b" [DNode.elem "b" [] [.text " "]] = true := by
  constructor
  · simp [normalizeTree, hasMergeablePair, canMerge, removeEmptyL, flattenL, cleanWsL, junkL,
      coalesceTexts, INLINE_TAGS, PRESERVE_EMPTY, textContentL, jsTrim, isJsWhitespace,
      cleanWsStr, collapseSp, replNbsp, replNbspGo, collapseSpGo, flushSp, flushNbsp,
      nbspChar, containsZeroWidth, isZeroWidth, stripZeroWidth, lookupAttr]
  · simp [containsTagL]

/-- C4 (amended): normalization removes a bold element with no child nodes
at all; it preserves a bold element whose content is only whitespace text
(a whitespace text child is still a child node), and it preserves a bold
element whose sole child is a line-break element. -/
theorem c4_theorem :
    normalizeTree [DNode.elem "b" [] []] = some [] ∧
    normalizeTree [DNode.elem "b" [] [.text " "]] = some [DNode.elem "b" [] [.text " "]] ∧
    normalizeTree [DNode.elem "b" [] [DNode.elem "br" [] []]] =
      some [DNode.elem "b" [] [DNode.elem "br" [] []]] := by
  refine ⟨?_, ?_, ?_⟩ <;>
    simp [normalizeTree, hasMergeablePair, canMerge, removeEmptyL, flattenL, cleanWsL, junkL,
      coalesceTexts, INLINE_TAGS, PRESERVE_EMPTY, textContentL, jsTrim, isJsWhitespace,
      cleanWsStr, collapseSp, replNbsp, replNbspGo, collapseSpGo, flushSp, flushNbsp,
      nbspChar, containsZeroWidth, isZeroWidth, stripZeroWidth, lookupAttr]

/-! ### Claim C1 — requiresSelection commands on a collapsed selection -/

/-- C1 counterexample: with a collapsed selection, a read-write editor and
the surface `<b></b>`, executing the `code` command (the one default
registration carrying `requiresSelection`) changes the serialized content:
the handler itself returns without mutating, but `executeCommand`
unconditionally runs the DOM normalizer afterwards, which removes the empty
bold element. -/
theorem c1_counterexample :
    execCodeExec false [DNode.elem "b" [] []] (some ⟨true, true, [0], 0, 0⟩) = some [] ∧
    serializeL [] ≠ serializeL [DNode.elem "b" [] []] := by
  constructor
  · simp only [execCodeExec, codeCmd, if_true, Bool.false_eq_true, if_false]
    simp [normalizeTree, hasMergeablePair, canMerge, removeEmptyL, flattenL, cleanWsL, junkL,
      coalesceTexts, INLINE_TAGS, PRESERVE_EMPTY, textContentL, jsTrim, isJsWhitespace,
      lookupAttr]
  · simp [serializeL, serializeAttrs, escText, voidTags, String.join]

/-- C1 (amended): invoking the `code` command through the executor with a
collapsed selection leaves the handler's mutation out entirely — the
resulting content is exactly the content after the post-command DOM
normalization pass alone (or the untouched content when the editor is
read-only); in particular the serialized content is unchanged whenever the
content is already a fixed point of the normalizer. -/
theorem c1_theorem (ro : Bool) (l : List DNode) (s : SelS) (hs : s.collapsed = true) :
    execCodeExec ro l (some s) = (if ro then some l else normalizeTree l) ∧
    (normalizeTree l = some l → execCodeExec ro l (some s) = some l) := by
  have hc : codeCmd l (some s) = l := by simp [codeCmd, hs]
  constructor
  · cases ro <;> simp [execCodeExec, hc]
  · intro h
    cases ro <;> simp [execCodeExec, hc, h]

/-- C1 witness: a concrete instantiation of `c1_theorem` at a collapsed
selection over the already-normal surface `<p>hi</p>`. -/
theorem c1_witness :
    execCodeExec false [DNode.elem "p" [] [.text "hi"]] (some ⟨true, true, [0], 0, 0⟩) =
      normalizeTree [DNode.elem "p" [] [.text "hi"]] :=
  (c1_theorem false [DNode.elem "p" [] [.text "hi"]] ⟨true, true, [0], 0, 0⟩ rfl).1

/-! ### Claim C8 — range normalization is pure, collapsed ranges unchanged -/

/-- C8: a `normalizeRange` call never mutates the caller's range — the
source clones the input and mutates only the clone, so after the call the
caller's range has the boundary points it had before — and for a collapsed
input range the returned range is boundary-for-boundary identical to the
input (the corrections apply only to non-collapsed ranges). -/
theorem c8_theorem (t : List DNode) (r : RangeV) :
    (normalizeRangeCall t r).1 = r ∧
    (rangeCollapsed r = true → (normalizeRangeCall t r).2 = r) := by
  refine ⟨rfl, fun hc => ?_⟩
  simp [normalizeRangeCall, normalizeRange, hc]

/-- C8 witness: a concrete collapsed caret inside `<p>hi</p>`. -/
theorem c8_witness :
    (normalizeRangeCall [DNode.elem "p" [] [.text "hi"]] ⟨[0, 0], 1, [0, 0], 1⟩).1 =
        (⟨[0, 0], 1, [0, 0], 1⟩ : RangeV) ∧
      (normalizeRangeCall [DNode.elem "p" [] [.text "hi"]] ⟨[0, 0], 1, [0, 0], 1⟩).2 =
        (⟨[0, 0], 1, [0, 0], 1⟩ : RangeV) :=
  ⟨(c8_theorem [DNode.elem "p" [] [.text "hi"]] ⟨[0, 0], 1, [0, 0], 1⟩).1,
   (c8_theorem [DNode.elem "p" [] [.text "hi"]] ⟨[0, 0], 1, [0, 0], 1⟩).2 rfl⟩

/-! ### Claim C5 — ordering of the command-execution steps -/

/-- C5: within a single command execution that resolves a handler (editor
not read-only), the observable steps form the synchronous phase — handler
invocation, DOM normalization, debounced history push, content-changed
emission, the external change callback when configured, the synchronous
format-change emission tagged with source 'command' when the diff is
non-empty — followed, strictly after the whole synchronous phase, by the
deferred next-paint selection re-read and the conditional second
format-change emission; the steps that do occur always appear in that fixed
order. -/
theorem c5_theorem :
    ∀ (onChangePresent syncDiff selPresent deferredDiff : Bool),
      executeCommandFullTrace false true onChangePresent syncDiff selPresent deferredDiff =
          execSyncTrace onChangePresent syncDiff ++ execDeferredTrace selPresent deferredDiff ∧
        (execSyncTrace onChangePresent syncDiff).Sublist
          [.handlerRun, .normalizeRun, .historyDebouncedPush, .changeEmitted,
           .onChangeCallback, .formatChangeSyncCommand] ∧
        ([.handlerRun, .normalizeRun, .historyDebouncedPush, .changeEmitted] :
            List ExecStep).Sublist (execSyncTrace onChangePresent syncDiff) ∧
        (execDeferredTrace selPresent deferredDiff).Sublist
          [.selectionReread, .formatChangeDeferred] ∧
        ExecStep.selectionReread ∈ execDeferredTrace selPresent deferredDiff := by
  decide

/-! ### Claim C9 — the executor ignores enablement metadata -/

/-- C9: the command executor does not consult the registry's enablement
metadata: for every registered command whose computed command state reports
`enabled = false` (because of the `requiresSelection` flag or a custom
`isEnabled` predicate) while the editor is not read-only, `exec` still
resolves and invokes the registration's handler, with the caller's
arguments or the registration's defaults. -/
theorem c9_theorem {α : Type} (registry : String → Option (CommandRegistration α))
    (commands : String → Option α) (command : String) (args : List JVal)
    (formatState : FormatState) (hasSelection : Bool) (reg : CommandRegistration α)
    (hreg : registry command = some reg)
    (hdis : (getCommandState registry command formatState hasSelection false).map
        (fun m => m.enabled) = some false) :
    resolveExec false registry commands command args =
      some (reg.handler, if args.length > 0 then args else reg.defaultArgs) := by
  simp [resolveExec, hreg]

/-- C9 witness: the default `code` registration (`requiresSelection = true`,
custom `isEnabled` consulting bold/italic) with no selection reports
`enabled = false`, yet `exec` still resolves its handler (identified here by
the tag `7`). -/
theorem c9_witness :
    resolveExec false
        (fun n => if n = "code" then
          some { name := "code", label := "Inline Code", category := "inline",
                 type := "toggle", handler := (7 : Nat), icon := some "code",
                 toolbarGroup := some "format",
                 isActive := some (fun s => s.code),
                 isEnabled := some (fun c => !c.format.bold && !c.format.italic),
                 requiresSelection := true, floatingToolbar := true, fixedToolbar := true }
          else none)
        (fun _ => none) "code" [] =
      some (7, []) := by
  have h := c9_theorem (α := Nat)
    (fun n => if n = "code" then
      some { name := "code", label := "Inline Code", category := "inline",
             type := "toggle", handler := (7 : Nat), icon := some "code",
             toolbarGroup := some "format",
             isActive := some (fun s => s.code),
             isEnabled := some (fun c => !c.format.bold && !c.format.italic),
             requiresSelection := true, floatingToolbar := true, fixedToolbar := true }
      else none)
    (fun _ => none) "code" [] defaultFormats false
    { name := "code", label := "Inline Code", category := "inline",
      type := "toggle", handler := (7 : Nat), icon := some "code",
      toolbarGroup := some "format",
      isActive := some (fun s => s.code),
      isEnabled := some (fun c => !c.format.bold && !c.format.italic),
      requiresSelection := true, floatingToolbar := true, fixedToolbar := true }
    (by simp) (by simp [getCommandState, defaultFormats])
  simpa using h

/-! ### Claim C10 — push then pushImmediate with the same content -/

/-- C10: for every manager state and content `c` different from the
last-pushed content, `push(c)` followed by `pushImmediate(c)` before the
debounce timer fires appends no entry containing `c`, ever: `push` updates
`lastContent` immediately and schedules the entry; `pushImmediate` cancels
the pending timer and then skips its own append because its
identical-content check compares against the already-updated `lastContent`.
The stack is unchanged, nothing is pending, and a later timer fire is a
no-op. -/
theorem c10_theorem (m : HistoryM) (c : String) (sel sel2 : Option (Nat × Nat))
    (hne : c ≠ m.lastContent) :
    (pushImmediate c sel2 (push c sel m)).stack = m.stack ∧
    (pushImmediate c sel2 (push c sel m)).pending = none ∧
    fireDebounce (pushImmediate c sel2 (push c sel m)) =
      pushImmediate c sel2 (push c sel m) := by
  have h1 : push c sel m = { m with lastContent := c, pending := some (c, sel) } := by
    simp [push, hne]
  have h2 : pushImmediate c sel2 (push c sel m) =
      { m with lastContent := c, pending := none } := by
    rw [h1]
    simp [pushImmediate]
  refine ⟨by rw [h2], by rw [h2], by rw [h2]; simp [fireDebounce]⟩

/-- C10 witness: a fresh manager and the content "x". -/
theorem c10_witness :
    (pushImmediate "x" none (push "x" none (freshHistory 100))).stack = [] ∧
    (pushImmediate "x" none (push "x" none (freshHistory 100))).pending = none := by
  have h := c10_theorem (freshHistory 100) "x" none none (by decide)
  exact ⟨h.1, h.2.1⟩

/-! ### History-manager run lemmas -/

theorem drop_one_append_drop {α : Type} (l s : List α) (n : Nat) (h : 1 ≤ l.length) :
    (l.drop 1 ++ s).drop n = (l ++ s).drop (n + 1) := by
  rw [List.drop_append_eq_append_drop, List.drop_append_eq_append_drop, List.drop_drop]
  congr 1
  · congr 1
    omega
  · congr 1
    simp only [List.length_drop]
    omega

/-- One registering `pushImmediate` step, written out as a record update. -/
theorem pushImmediate_step (c : String) (m : HistoryM)
    (hp : m.pending = none)
    (hpos : m.position = (m.stack.length : Int) - 1)
    (hcap : m.stack.length ≤ m.maxSize)
    (hne : c ≠ m.lastContent) :
    pushImmediate c none m =
      if m.stack.length = m.maxSize then
        { m with
          stack := (m.stack ++ [({ html := c, selection := none } : HistoryEntry)]).drop 1
          pending := none
          lastContent := c }
      else
        { m with
          stack := m.stack ++ [({ html := c, selection := none } : HistoryEntry)]
          position := m.position + 1
          pending := none
          lastContent := c } := by
  have htake : ((m.position + 1).toNat) = m.stack.length := by
    rw [hpos]; omega
  simp only [pushImmediate, addEntry, hne, if_true]
  rw [if_pos (by simpa using hne)]
  simp only [htake, List.take_length, List.length_append, List.length_cons, List.length_nil]
  by_cases hfull : m.stack.length = m.maxSize
  · rw [if_pos (by omega), if_pos hfull]
  · rw [if_neg (by omega), if_neg hfull]

/-- Invariant of a run of registering immediate pushes from a tail-positioned
state: the stack is the suffix of the old stack extended by the new entries
that fits the capacity, the position tracks the tail, nothing is pending and
the last content is the last pushed one. -/
theorem pushListI_spec (cs : List String) :
    ∀ (m : HistoryM),
      m.pending = none →
      m.position = (m.stack.length : Int) - 1 →
      m.stack.length ≤ m.maxSize →
      List.Chain' (· ≠ ·) (m.lastContent :: cs) →
      (pushListI cs m).stack =
          (m.stack ++ cs.map (fun c => ({ html := c, selection := none } : HistoryEntry))).drop
            (m.stack.length + cs.length - m.maxSize) ∧
        (pushListI cs m).position =
          ((min (m.stack.length + cs.length) m.maxSize : Nat) : Int) - 1 ∧
        (pushListI cs m).pending = none ∧
        (pushListI cs m).maxSize = m.maxSize ∧
        (pushListI cs m).lastContent = cs.getLastD m.lastContent := by
  induction cs with
  | nil =>
    intro m hp hpos hcap _
    refine ⟨?_, ?_, hp, rfl, rfl⟩
    · simp [pushListI, Nat.sub_eq_zero_of_le hcap]
    · simp [pushListI, hpos, Nat.min_eq_left hcap]
  | cons c rest ih =>
    intro m hp hpos hcap hch
    have hne : c ≠ m.lastContent := by
      have h1 := (List.chain'_cons'.mp hch).1
      exact fun he => by simpa [he] using h1 c rfl
    have hch2 : List.Chain' (· ≠ ·) (c :: rest) := (List.chain'_cons'.mp hch).2
    rw [show pushListI (c :: rest) m = pushListI rest (pushImmediate c none m) from rfl,
      pushImmediate_step c m hp hpos hcap hne]
    by_cases hfull : m.stack.length = m.maxSize
    · rw [if_pos hfull]
      have h2 := ih
        { m with
          stack := (m.stack ++ [({ html := c, selection := none } : HistoryEntry)]).drop 1
          pending := none
          lastContent := c }
        rfl
        (by
          show m.position = _
          simp only [List.length_drop, List.length_append, List.length_cons, List.length_nil]
          rw [hpos]; omega)
        (by
          show (List.drop 1 _).length ≤ m.maxSize
          simp only [List.length_drop, List.length_append, List.length_cons, List.length_nil]
          omega)
        (by simpa using hch2)
      refine ⟨?_, ?_, h2.2.2.1, h2.2.2.2.1, ?_⟩
      · rw [h2.1]
        dsimp only
        rw [drop_one_append_drop _ _ _ (by simp)]
        rw [show ((m.stack ++ [({ html := c, selection := none } : HistoryEntry)]) ++
              rest.map (fun c => ({ html := c, selection := none } : HistoryEntry))) =
            (m.stack ++ (c :: rest).map
              (fun c => ({ html := c, selection := none } : HistoryEntry))) by simp]
        congr 1
        simp only [List.length_drop, List.length_append, List.length_cons, List.length_nil]
        omega
      · rw [h2.2.1]
        congr 2
        simp only [List.length_drop, List.length_append, List.length_cons, List.length_nil,
          List.length_map]
        omega
      · rw [h2.2.2.2.2]
        dsimp only
        rw [List.getLastD_cons]
    · rw [if_neg hfull]
      have h2 := ih
        { m with
          stack := m.stack ++ [({ html := c, selection := none } : HistoryEntry)]
          position := m.position + 1
          pending := none
          lastContent := c }
        rfl
        (by
          show m.position + 1 = _
          simp only [List.length_append, List.length_cons, List.length_nil]
          rw [hpos]; push_cast; ring)
        (by
          show (m.stack ++ [({ html := c, selection := none } : HistoryEntry)]).length ≤
            m.maxSize
          simp only [List.length_append, List.length_cons, List.length_nil]
          omega)
        (by simpa using hch2)
      refine ⟨?_, ?_, h2.2.2.1, h2.2.2.2.1, ?_⟩
      · rw [h2.1]
        rw [show ((m.stack ++ [({ html := c, selection := none } : HistoryEntry)]) ++
              rest.map (fun c => ({ html := c, selection := none } : HistoryEntry))) =
            (m.stack ++ (c :: rest).map
              (fun c => ({ html := c, selection := none } : HistoryEntry))) by simp]
        congr 1
        simp only [List.length_append, List.length_cons, List.length_nil]
        omega
      · rw [h2.2.1]
        congr 2
        simp only [List.length_append, List.length_cons, List.length_nil]
        omega
      · rw [h2.2.2.2.2]
        dsimp only
        rw [List.getLastD_cons]

/-- M undo calls from a position at least M just move the position back by
M. -/
theorem undoN_spec (M : Nat) :
    ∀ (m : HistoryM), (M : Int) ≤ m.position →
      undoN M m = { m with position := m.position - M } := by
  induction M with
  | zero => intro m _; simp [undoN]
  | succ k ih =>
    intro m hM
    have hc : canUndo m = true := by
      simp only [canUndo, decide_eq_true_eq]
      push_cast at hM
      omega
    rw [show undoN (k + 1) m = undoN k (undoS m) from rfl, undoS, if_pos hc,
      ih _ (by simp; push_cast at hM ⊢; omega)]
    congr 1
    push_cast
    ring

theorem nodup_map_range_ne (f : Nat → String) (n i j : Nat)
    (h : ((List.range n).map f).Nodup) (hij : i < j) (hj : j < n) : f i ≠ f j := by
  have hp := List.pairwise_iff_getElem.mp h i j
    (by simpa using lt_trans hij hj) (by simpa using hj) hij
  simpa using hp

theorem getLastD_map_range (f : Nat → String) (N : Nat) (h : 1 ≤ N) (d : String) :
    ((List.range N).map f).getLastD d = f (N - 1) := by
  obtain ⟨n, rfl⟩ : ∃ n, N = n + 1 := ⟨N - 1, by omega⟩
  rw [List.range_succ, List.map_append]
  simp

/-! ### Claim C2 — undo/redo stack invariant around a new push -/

/-- C2 counterexample: with N = 1 and M = N = 1 (the claim allows M ≤ N),
the single undo call cannot fire (the position is already at the first
entry, `canUndo` requires `position > 0`), so after the new push undo is
available once, not N − M = 0 times: `canUndo` is true where the claim
demands it be exhausted after zero undos. -/
theorem c2_counterexample :
    canRedo (pushImmediate "b" none (undoN 1 (pushImmediate "a" none (freshHistory 100)))) =
        false ∧
      canUndo (pushImmediate "b" none (undoN 1 (pushImmediate "a" none (freshHistory 100)))) =
        true := by
  decide

/-- C2 (amended): for every fresh HistoryManager, after N immediate pushes
of pairwise-distinct non-empty contents (also distinct from the fresh
manager's initial empty last-content) with N < capacity, followed by M undo
calls with M ≤ N − 1, followed by one new push of fresh distinct content,
redo reports unavailable and undo is available exactly N − M times: the
first N − M repeated undo calls succeed and the next one fails. -/
theorem c2_theorem (N M cap : Nat) (f : Nat → String)
    (hN : N < cap) (hM : M < N)
    (hnd : ("" :: (List.range (N + 1)).map f).Nodup) :
    canRedo (pushUndoPushScenario N M cap f) = false ∧
      (∀ k, k < N - M → canUndo (undoN k (pushUndoPushScenario N M cap f)) = true) ∧
      canUndo (undoN (N - M) (pushUndoPushScenario N M cap f)) = false := by
  have hnd1 : ((List.range (N + 1)).map f).Nodup := hnd.of_cons
  have hndN : ("" :: (List.range N).map f).Nodup := by
    refine List.Sublist.nodup ?_ hnd
    refine List.Sublist.cons₂ _ ?_
    rw [List.range_succ, List.map_append]
    exact List.sublist_append_left _ _
  have hch : List.Chain' (· ≠ ·) ((freshHistory cap).lastContent :: (List.range N).map f) :=
    List.Pairwise.chain' hndN
  have h := pushListI_spec ((List.range N).map f) (freshHistory cap) rfl
    (by simp [freshHistory]) (by simp [freshHistory]) hch
  set m0 := pushListI ((List.range N).map f) (freshHistory cap) with hm0def
  have hstack : m0.stack.length = N := by
    rw [h.1]
    simp only [freshHistory, List.length_drop, List.length_append, List.length_nil,
      List.length_map, List.length_range]
    omega
  have hpos : m0.position = (N : Int) - 1 := by
    rw [h.2.1]
    simp only [freshHistory, List.length_nil, List.length_map, List.length_range]
    congr 1
    omega
  have hpend : m0.pending = none := h.2.2.1
  have hmax : m0.maxSize = cap := h.2.2.2.1
  have hlast : m0.lastContent = f (N - 1) := by
    rw [h.2.2.2.2]
    show ((List.range N).map f).getLastD (freshHistory cap).lastContent = _
    rw [show (freshHistory cap).lastContent = "" from rfl,
      getLastD_map_range f N (by omega)]
  have hu : undoN M m0 = { m0 with position := m0.position - M } :=
    undoN_spec M m0 (by rw [hpos]; push_cast; omega)
  have hfne : f N ≠ (undoN M m0).lastContent := by
    rw [hu]
    show f N ≠ m0.lastContent
    rw [hlast]
    exact (nodup_map_range_ne f (N + 1) (N - 1) N hnd1 (by omega) (by omega)).symm
  have htoNat : ((undoN M m0).position + 1).toNat = N - M := by
    rw [hu]
    show (m0.position - M + 1).toNat = N - M
    rw [hpos]
    omega
  have hscen : pushUndoPushScenario N M cap f =
      addEntry (f N) none
        { undoN M m0 with pending := none, lastContent := f N } := by
    rw [pushUndoPushScenario, ← hm0def]
    simp only [pushImmediate]
    rw [if_pos (by simpa using hfne)]
  have hstack1 : (undoN M m0).stack = m0.stack := by rw [hu]
  have hslen : ((undoN M m0).stack.take (((undoN M m0).position + 1).toNat) ++
      [({ html := f N, selection := none } : HistoryEntry)]).length = N - M + 1 := by
    rw [htoNat, hstack1]
    simp only [List.length_append, List.length_take, List.length_cons, List.length_nil, hstack]
    omega
  have hm2 : pushUndoPushScenario N M cap f =
      { undoN M m0 with
        stack := (undoN M m0).stack.take (((undoN M m0).position + 1).toNat) ++
          [({ html := f N, selection := none } : HistoryEntry)]
        position := (undoN M m0).position + 1
        pending := none
        lastContent := f N } := by
    rw [hscen]
    simp only [addEntry]
    rw [if_neg (by
      rw [hslen]
      show ¬N - M + 1 > ({ undoN M m0 with pending := none, lastContent := f N } : HistoryM).maxSize
      have : ({ undoN M m0 with pending := none, lastContent := f N } : HistoryM).maxSize =
          cap := by rw [hu]; exact hmax
      rw [this]
      omega)]
  have hm2pos : (pushUndoPushScenario N M cap f).position = (N : Int) - M := by
    rw [hm2]
    show (undoN M m0).position + 1 = _
    rw [hu]
    show m0.position - M + 1 = _
    rw [hpos]
    push_cast
    ring
  have hm2len : (pushUndoPushScenario N M cap f).stack.length = N - M + 1 := by
    rw [hm2]
    exact hslen
  refine ⟨?_, ?_, ?_⟩
  · simp only [canRedo, hm2pos, hm2len, decide_eq_false_iff_not, not_lt]
    push_cast
    omega
  · intro k hk
    have hks : undoN k (pushUndoPushScenario N M cap f) =
        { pushUndoPushScenario N M cap f with
          position := (pushUndoPushScenario N M cap f).position - k } :=
      undoN_spec k _ (by rw [hm2pos]; push_cast; omega)
    rw [hks]
    simp only [canUndo, decide_eq_true_eq]
    show (pushUndoPushScenario N M cap f).position - k > 0
    rw [hm2pos]
    push_cast
    omega
  · have hks : undoN (N - M) (pushUndoPushScenario N M cap f) =
        { pushUndoPushScenario N M cap f with
          position := (pushUndoPushScenario N M cap f).position - ((N - M : Nat) : Int) } :=
      undoN_spec (N - M) _ (by rw [hm2pos]; push_cast; omega)
    rw [hks]
    simp only [canUndo, decide_eq_false_iff_not, not_lt]
    show (pushUndoPushScenario N M cap f).position - ((N - M : Nat) : Int) ≤ 0
    rw [hm2pos]
    push_cast
    omega

/-- C2 witness: N = 2, M = 1, capacity 4 and the contents "a", "b", "c":
after the scenario, redo is unavailable, one undo succeeds and a second one
fails. -/
theorem c2_witness :
    canRedo (pushUndoPushScenario 2 1 4 (fun i => ["a", "b", "c"].getD i "z")) = false ∧
      canUndo (pushUndoPushScenario 2 1 4 (fun i => ["a", "b", "c"].getD i "z")) = true ∧
      canUndo (undoN 1 (pushUndoPushScenario 2 1 4 (fun i => ["a", "b", "c"].getD i "z"))) =
        false := by
  have h := c2_theorem 2 1 4 (fun i => ["a", "b", "c"].getD i "z")
    (by omega) (by omega) (by decide)
  exact ⟨h.1, h.2.1 0 (by omega), h.2.2⟩

/-! ### Claim C7 — history capacity bound -/

theorem drop_map_range {α : Type} (g : Nat → α) (k n : Nat) :
    ((List.range (k + n)).map g).drop k = (List.range n).map (fun i => g (k + i)) := by
  rw [List.range_add, List.map_append, List.drop_append_eq_append_drop]
  simp [List.map_map, Function.comp_def]

/-- C7: for every fresh HistoryManager with capacity c, performing c + 5
immediate pushes of pairwise-distinct contents leaves the stack with exactly
c entries — the 5 oldest discarded, so the stack holds the entries for
f 5 .. f (c + 4) in order — and the position index at the last entry of the
stack. -/
theorem c7_theorem (cap : Nat) (f : Nat → String)
    (hnd : ((List.range (cap + 5)).map f).Nodup) :
    (pushListI ((List.range (cap + 5)).map f) (freshHistory cap)).stack =
        (List.range cap).map
          (fun i => ({ html := f (i + 5), selection := none } : HistoryEntry)) ∧
      (pushListI ((List.range (cap + 5)).map f) (freshHistory cap)).position =
        (cap : Int) - 1 := by
  by_cases h0 : f 0 = ""
  · have hsplit : (List.range (cap + 5)).map f =
        f 0 :: (List.range (cap + 4)).map (fun i => f (i + 1)) := by
      rw [show cap + 5 = (cap + 4) + 1 from rfl, List.range_succ_eq_map, List.map_cons,
        List.map_map]
      rfl
    have hpush0 : pushImmediate (f 0) none (freshHistory cap) = freshHistory cap := by
      simp [pushImmediate, freshHistory, h0]
    have hndL : ((List.range (cap + 4)).map (fun i => f (i + 1))).Nodup := by
      have := hnd
      rw [hsplit] at this
      exact this.of_cons
    have hch : List.Chain' (· ≠ ·)
        ((freshHistory cap).lastContent :: (List.range (cap + 4)).map (fun i => f (i + 1))) := by
      rw [List.chain'_cons']
      refine ⟨?_, List.Pairwise.chain' hndL⟩
      intro y hy
      have hmem : f 1 ∈ (List.range (cap + 4)).map (fun i => f (i + 1)) :=
        List.mem_map.mpr ⟨0, by simp, rfl⟩
      have hy1 : f 1 = y := by
        rw [show cap + 4 = (cap + 3) + 1 from rfl, List.range_succ_eq_map] at hy
        simpa using hy
      have hne01 : f 0 ≠ f 1 := nodup_map_range_ne f (cap + 5) 0 1 hnd (by omega) (by omega)
      show (freshHistory cap).lastContent ≠ y
      rw [← hy1, show (freshHistory cap).lastContent = "" from rfl, ← h0]
      exact hne01
    have h := pushListI_spec ((List.range (cap + 4)).map (fun i => f (i + 1)))
      (freshHistory cap) rfl (by simp [freshHistory]) (by simp [freshHistory]) hch
    rw [hsplit, show pushListI (f 0 :: (List.range (cap + 4)).map (fun i => f (i + 1)))
        (freshHistory cap) =
      pushListI ((List.range (cap + 4)).map (fun i => f (i + 1)))
        (pushImmediate (f 0) none (freshHistory cap)) from rfl, hpush0]
    constructor
    · rw [h.1]
      simp only [freshHistory, List.nil_append, List.length_nil, List.length_map,
        List.length_range, Nat.zero_add, List.map_map]
      rw [show cap + 4 - cap = 4 by omega, show cap + 4 = 4 + cap by omega, drop_map_range]
      refine List.map_congr_left fun i _ => ?_
      simp only [Function.comp_apply]
      rw [show 4 + i + 1 = i + 5 by omega]
    · rw [h.2.1]
      simp only [freshHistory, List.length_nil, List.length_map, List.length_range,
        Nat.zero_add]
      congr 1
      omega
  · have hch : List.Chain' (· ≠ ·)
        ((freshHistory cap).lastContent :: (List.range (cap + 5)).map f) := by
      rw [List.chain'_cons']
      refine ⟨?_, List.Pairwise.chain' hnd⟩
      intro y hy
      have hy0 : f 0 = y := by
        rw [show cap + 5 = (cap + 4) + 1 from rfl, List.range_succ_eq_map] at hy
        simpa using hy
      show (freshHistory cap).lastContent ≠ y
      rw [← hy0, show (freshHistory cap).lastContent = "" from rfl]
      exact fun he => h0 he.symm
    have h := pushListI_spec ((List.range (cap + 5)).map f) (freshHistory cap) rfl
      (by simp [freshHistory]) (by simp [freshHistory]) hch
    constructor
    · rw [h.1]
      simp only [freshHistory, List.nil_append, List.length_nil, List.length_map,
        List.length_range, Nat.zero_add, List.map_map]
      rw [show cap + 5 - cap = 5 by omega, show cap + 5 = 5 + cap by omega, drop_map_range]
      refine List.map_congr_left fun i _ => ?_
      simp only [Function.comp_apply]
      rw [show 5 + i = i + 5 by omega]
    · rw [h.2.1]
      simp only [freshHistory, List.length_nil, List.length_map, List.length_range,
        Nat.zero_add]
      congr 1
      omega

/-- C7 witness: capacity 2 and seven pushes of the distinct contents
"a" .. "g": the stack ends as the entries for "f", "g" with the position at
index 1. -/
theorem c7_witness :
    (pushListI ((List.range 7).map
          (fun i => ["a", "b", "c", "d", "e", "f", "g"].getD i "z"))
        (freshHistory 2)).stack =
        [{ html := "f", selection := none }, { html := "g", selection := none }] ∧
      (pushListI ((List.range 7).map
          (fun i => ["a", "b", "c", "d", "e", "f", "g"].getD i "z"))
        (freshHistory 2)).position = 1 := by
  have h := c7_theorem 2 (fun i => ["a", "b", "c", "d", "e", "f", "g"].getD i "z")
    (by decide)
  refine ⟨?_, ?_⟩
  · rw [h.1]
    decide
  · rw [h.2]
    decide

/-! ### Anchor bookkeeping lemmas (for the link command) -/

theorem mem_anchorHrefs_of_get (l : List DNode) :
    ∀ (i : Nat) (a : List (String × String)) (k : List DNode),
      l.get? i = some (.elem "a" a k) → lookupAttr a "href" ∈ anchorHrefs l := by
  induction l with
  | nil => intro i a k h; simp at h
  | cons x rest ih =>
    intro i a k h
    cases i with
    | zero =>
      simp only [List.get?_cons_zero, Option.some.injEq] at h
      subst h
      simp [anchorHrefs]
    | succ n =>
      simp only [List.get?_cons_succ] at h
      have hm := ih n a k h
      cases x with
      | text s => simpa [anchorHrefs] using hm
      | elem tg a2 k2 => simp [anchorHrefs, hm]

theorem anchorHrefs_sub_of_get (l : List DNode) :
    ∀ (i : Nat) (tg : String) (a : List (String × String)) (k : List DNode)
      (x : Option String),
      l.get? i = some (.elem tg a k) → x ∈ anchorHrefs k → x ∈ anchorHrefs l := by
  induction l with
  | nil => intro i tg a k x h; simp at h
  | cons y rest ih =>
    intro i tg a k x h hx
    cases i with
    | zero =>
      simp only [List.get?_cons_zero, Option.some.injEq] at h
      subst h
      simp [anchorHrefs, hx]
    | succ n =>
      simp only [List.get?_cons_succ] at h
      have hm := ih n tg a k x h hx
      cases y with
      | text s => simpa [anchorHrefs] using hm
      | elem tg2 a2 k2 => simp [anchorHrefs, hm]

theorem mem_anchorHrefs_nodeAt :
    ∀ (p : List Nat) (l : List DNode) (a : List (String × String)) (k : List DNode),
      nodeAt l p = some (.elem "a" a k) → lookupAttr a "href" ∈ anchorHrefs l := by
  intro p
  induction p with
  | nil => intro l a k h; simp [nodeAt] at h
  | cons i p2 ih =>
    intro l a k h
    cases p2 with
    | nil => exact mem_anchorHrefs_of_get l i a k (by simpa [nodeAt] using h)
    | cons j p3 =>
      simp only [nodeAt] at h
      cases hg : l.get? i with
      | none => rw [hg] at h; simp at h
      | some n =>
        rw [hg] at h
        cases n with
        | text s => simp at h
        | elem tg2 a2 k2 =>
          exact anchorHrefs_sub_of_get l i tg2 a2 k2 _ hg (ih k2 a k h)

theorem nodeAt_updateAt_self (f : DNode → DNode) :
    ∀ (p : List Nat) (l : List DNode) (n : DNode),
      nodeAt l p = some n →
      nodeAt (updateAt l p f) p = some (f n) := by
  intro p
  induction p with
  | nil => intro l n h; simp [nodeAt] at h
  | cons i p2 ih =>
    intro l n h
    cases p2 with
    | nil =>
      simp only [nodeAt] at h ⊢
      simp only [updateAt]
      clear ih
      induction l generalizing i with
      | nil => simp at h
      | cons x rest ihl =>
        cases i with
        | zero =>
          simp only [List.get?_cons_zero, Option.some.injEq] at h
          subst h
          simp [updListAt]
        | succ m =>
          simp only [List.get?_cons_succ] at h ⊢
          exact ihl m h
    | cons j p3 =>
      simp only [nodeAt] at h
      cases hg : l.get? i with
      | none => rw [hg] at h; simp at h
      | some x =>
        rw [hg] at h
        cases x with
        | text s => simp at h
        | elem tg2 a2 k2 =>
          have hrec := ih k2 n h
          simp only [updateAt, nodeAt]
          clear ih
          induction l generalizing i with
          | nil => simp at hg
          | cons y rest ihl =>
            cases i with
            | zero =>
              simp only [List.get?_cons_zero, Option.some.injEq] at hg
              subst hg
              simpa [updListAt] using hrec
            | succ m =>
              simp only [List.get?_cons_succ] at hg ⊢
              simpa [updListAt] using ihl m hg

theorem length_anchorHrefs_updateAt (url : String) :
    ∀ (p : List Nat) (l : List DNode),
      (anchorHrefs (updateAt l p (setHrefF url))).length = (anchorHrefs l).length := by
  intro p
  induction p with
  | nil => intro l; rfl
  | cons i p2 ih =>
    intro l
    cases p2 with
    | nil =>
      simp only [updateAt]
      clear ih
      induction l generalizing i with
      | nil => cases i <;> rfl
      | cons x rest ihl =>
        cases i with
        | zero =>
          cases x with
          | text s => rfl
          | elem tg a k =>
            by_cases htg : tg = "a" <;> simp [updListAt, anchorHrefs, setHrefF, htg]
        | succ n =>
          cases x with
          | text s => simpa [updListAt, anchorHrefs] using ihl n
          | elem tg a k => simpa [updListAt, anchorHrefs] using ihl n
    | cons j p3 =>
      simp only [updateAt]
      induction l generalizing i with
      | nil => cases i <;> rfl
      | cons x rest ihl =>
        cases i with
        | zero =>
          cases x with
          | text s => rfl
          | elem tg a k => simp [updListAt, anchorHrefs, ih]
        | succ n =>
          cases x with
          | text s => simpa [updListAt, anchorHrefs] using ihl n
          | elem tg a k => simpa [updListAt, anchorHrefs] using ihl n

theorem lookupAttr_map_set (name v : String) :
    ∀ (a : List (String × String)), (lookupAttr a name).isSome = true →
      lookupAttr (a.map fun q => if q.1 = name then (q.1, v) else q) name = some v := by
  intro a
  induction a with
  | nil => intro h; simp [lookupAttr] at h
  | cons x rest ih =>
    obtain ⟨xn, xv⟩ := x
    intro h
    by_cases hx : xn = name
    · subst hx
      simp only [List.map_cons]
      simp [lookupAttr]
    · simp only [lookupAttr, hx, if_false] at h
      simp only [List.map_cons]
      rw [show (if (xn, xv).1 = name then ((xn, xv).1, v) else (xn, xv)) = (xn, xv) from
        if_neg hx]
      simp only [lookupAttr, hx, if_false]
      exact ih h

theorem lookupAttr_append_new (name v : String) :
    ∀ (a : List (String × String)), lookupAttr a name = none →
      lookupAttr (a ++ [(name, v)]) name = some v := by
  intro a
  induction a with
  | nil => intro _; simp [lookupAttr]
  | cons x rest ih =>
    obtain ⟨xn, xv⟩ := x
    intro h
    by_cases hx : xn = name
    · simp [lookupAttr, hx] at h
    · simp only [lookupAttr, hx, if_false] at h
      simp only [List.cons_append, lookupAttr, hx, if_false]
      exact ih h

theorem lookupAttr_setAttrVal (a : List (String × String)) (name v : String) :
    lookupAttr (setAttrVal a name v) name = some v := by
  by_cases h : (lookupAttr a name).isSome
  · rw [setAttrVal, if_pos h]
    exact lookupAttr_map_set name v a h
  · rw [setAttrVal, if_neg h]
    exact lookupAttr_append_new name v a
      (Option.not_isSome_iff_eq_none.mp (by simpa using h))

theorem eq_singleton_of_length_one_mem {α : Type} {l : List α} {x : α}
    (hlen : l.length = 1) (hx : x ∈ l) : l = [x] := by
  cases l with
  | nil => simp at hx
  | cons y rest =>
    have hr : rest = [] := by
      simp only [List.length_cons] at hlen
      exact List.length_eq_zero.mp (by omega)
    subst hr
    have hxy : x = y := by simpa using hx
    simp [hxy]

theorem noNestedAnchor_of_nil :
    ∀ (l : List DNode) (b : Bool), anchorHrefs l = [] → noNestedAnchor b l = true := by
  intro l
  induction l using anchorHrefs.induct with
  | case1 => intro b _; simp [noNestedAnchor]
  | case2 s rest ih =>
    intro b h
    simp only [anchorHrefs] at h
    simpa [noNestedAnchor] using ih b h
  | case3 tg a k rest ih1 ih2 =>
    intro b h
    by_cases htg : tg = "a"
    · simp [anchorHrefs, htg] at h
    · have h2 : anchorHrefs k = [] ∧ anchorHrefs rest = [] := by
        simpa [anchorHrefs, htg] using h
      simp [noNestedAnchor, htg, ih1 b h2.1, ih2 b h2.2]

theorem noNestedAnchor_of_le_one :
    ∀ (l : List DNode), (anchorHrefs l).length ≤ 1 → noNestedAnchor false l = true := by
  intro l
  induction l using anchorHrefs.induct with
  | case1 => intro _; simp [noNestedAnchor]
  | case2 s rest ih =>
    intro h
    simp only [anchorHrefs] at h
    simpa [noNestedAnchor] using ih h
  | case3 tg a k rest ih1 ih2 =>
    intro h
    by_cases htg : tg = "a"
    · have h2 : (anchorHrefs k).length = 0 ∧ (anchorHrefs rest).length = 0 := by
        have h3 := h
        simp only [anchorHrefs, htg, if_pos, List.length_append, List.length_cons,
          List.length_nil] at h3
        omega
      have hk : anchorHrefs k = [] := List.length_eq_zero.mp h2.1
      have hr : anchorHrefs rest = [] := List.length_eq_zero.mp h2.2
      simp [noNestedAnchor, htg, noNestedAnchor_of_nil k true hk,
        noNestedAnchor_of_nil rest false hr]
    · have h2 : (anchorHrefs k).length + (anchorHrefs rest).length ≤ 1 := by
        have h3 := h
        simp only [anchorHrefs, htg, if_neg, if_false, List.length_append,
          List.length_nil] at h3
        omega
      simp [noNestedAnchor, htg, ih1 (by omega), ih2 (by omega)]

theorem getLinkUrlPath_none_of_no_anchor (l : List DNode) :
    ∀ (p : List Nat), findParentTagPath l "a" p = none → getLinkUrlPath l p = none := by
  refine getLinkUrlPath.induct l
    (fun q => findParentTagPath l "a" q = none → getLinkUrlPath l q = none)
    (fun _ => by
      unfold getLinkUrlPath
      simp)
    (fun x hx a k hn hv h => by
      unfold findParentTagPath at h
      rw [dif_neg hx, hn] at h
      simp at h)
    (fun x hx a k v hv hvne hn h => by
      unfold findParentTagPath at h
      rw [dif_neg hx, hn] at h
      simp at h)
    (fun x hx a k hv hn h => by
      unfold findParentTagPath at h
      rw [dif_neg hx, hn] at h
      simp at h)
    (fun x hx tg a k hn htg ih h => by
      unfold findParentTagPath at h
      rw [dif_neg hx, hn] at h
      dsimp only at h
      rw [if_neg htg] at h
      unfold getLinkUrlPath
      rw [dif_neg hx, hn]
      dsimp only
      rw [if_neg htg]
      exact ih h)
    (fun x hx hne ih h => by
      unfold findParentTagPath at h
      rw [dif_neg hx] at h
      unfold getLinkUrlPath
      rw [dif_neg hx]
      cases hn : nodeAt l x with
      | none =>
        rw [hn] at h
        dsimp only at h ⊢
        exact ih h
      | some n =>
        cases n with
        | text s =>
          rw [hn] at h
          dsimp only at h ⊢
          exact ih h
        | elem tg a k => exact absurd hn (fun hc => hne tg a k hc))

/-! ### Claim C6 — link command on an existing anchor / collapsed no-op -/

/-- C6: invoking the link command with a string URL while the selection lies
inside an existing anchor — the format resolver reports a link and
`findParentTag` locates the anchor from the range's common ancestor
container — mutates that anchor's destination in place (the result is the
same tree with only that anchor's `href` overwritten), yielding exactly one
anchor element carrying the new destination and never a nested anchor; and
with a collapsed selection not inside any link the command leaves the
content unchanged. -/
theorem c6_theorem :
    (∀ (l : List DNode) (s : SelS) (url : String) (p : List Nat)
        (a : List (String × String)) (k : List DNode),
        s.rangePresent = true →
        (getLinkUrlPath l s.container).isSome = true →
        findParentTagPath l "a" s.container = some p →
        nodeAt l p = some (.elem "a" a k) →
        (anchorHrefs l).length = 1 →
        linkCmd l (.str url) (some s) = updateAt l p (setHrefF url) ∧
          anchorHrefs (linkCmd l (.str url) (some s)) = [some url] ∧
          noNestedAnchor false (linkCmd l (.str url) (some s)) = true) ∧
      (∀ (l : List DNode) (s : SelS) (url : String),
        s.collapsed = true →
        findParentTagPath l "a" s.container = none →
        linkCmd l (.str url) (some s) = l) := by
  constructor
  · intro l s url p a k hrange hsome hfind hnode hcount
    have hred : linkCmd l (.str url) (some s) = updateAt l p (setHrefF url) := by
      simp [linkCmd, hsome, hrange, hfind]
    refine ⟨hred, ?_, ?_⟩
    · rw [hred]
      have hlen := length_anchorHrefs_updateAt url p l
      have hnode2 := nodeAt_updateAt_self (setHrefF url) p l _ hnode
      have hnode3 : nodeAt (updateAt l p (setHrefF url)) p =
          some (.elem "a" (setAttrVal a "href" url) k) := by
        rw [hnode2]
        rfl
      have hmem := mem_anchorHrefs_nodeAt p (updateAt l p (setHrefF url)) _ _ hnode3
      rw [lookupAttr_setAttrVal] at hmem
      exact eq_singleton_of_length_one_mem (by rw [hlen, hcount]) hmem
    · rw [hred]
      exact noNestedAnchor_of_le_one _ (by rw [length_anchorHrefs_updateAt, hcount])
  · intro l s url hcol hnone
    have h0 := getLinkUrlPath_none_of_no_anchor l s.container hnone
    simp [linkCmd, h0, hcol]

/-- C6 witness: on `<p><a href="https://old.example">text</a></p>` with the
selection inside the anchor's text, link("https://new.example") yields
exactly one anchor with the new destination; and a collapsed caret in a
plain `<p>hi</p>` leaves the content unchanged. -/
theorem c6_witness :
    anchorHrefs
        (linkCmd
          [DNode.elem "p" [] [DNode.elem "a" [("href", "https://old.example")] [.text "text"]]]
          (.str "https://new.example") (some ⟨false, true, [0, 0, 0], 0, 4⟩)) =
        [some "https://new.example"] ∧
      linkCmd [DNode.elem "p" [] [.text "hi"]] (.str "https://new.example")
          (some ⟨true, true, [0, 0], 0, 0⟩) =
        [DNode.elem "p" [] [.text "hi"]] := by
  constructor
  · have h := c6_theorem.1
      [DNode.elem "p" [] [DNode.elem "a" [("href", "https://old.example")] [.text "text"]]]
      ⟨false, true, [0, 0, 0], 0, 4⟩ "https://new.example" [0, 0]
      [("href", "https://old.example")] [.text "text"]
      rfl
      (by simp [getLinkUrlPath, nodeAt, lookupAttr])
      (by simp [findParentTagPath, nodeAt])
      rfl
      (by simp [anchorHrefs, lookupAttr])
    exact h.2.1
  · exact c6_theorem.2 [DNode.elem "p" [] [.text "hi"]] ⟨true, true, [0, 0], 0, 0⟩
      "https://new.example" rfl (by simp [findParentTagPath, nodeAt])

end Scribe
